import Mathlib

/-!
Verification of the solanum library: a singly-linked node substrate, a
persistent LIFO Stack built on it (src/src/stack.rs), the shared immutable
node (src/src/node/unidirectional.rs), and the FIFO Queue shell
(src/src/queue.rs, src/src/queue/queue.rs).

Two embeddings are used.

The pure model treats a reference-counted node chain as an inductive value:
since Stack nodes are immutable after construction (no interior mutability),
a chain of Rc references is observationally a pure value, and pushing or
popping builds new values.  All Stack operations are translated clause by
clause from src/src/stack.rs.

The heap model makes node identity explicit: a heap is a list of node cells
addressed by index, allocation appends a fresh cell, and a stack is an
optional head address.  This model can state the frame properties of push
and pop — that no existing cell is ever written, only the head address is
reassigned — which the pure model keeps implicit.

The Queue's enqueue/dequeue bodies do not appear in the source tree (only
the head/tail struct shells in src/src/queue.rs and src/src/queue/queue.rs),
so the Queue behaviour is modelled from the spec, as the doc comments of the
Queue definitions record.
-/

set_option autoImplicit false

namespace Solanum

/-- One link of a Stack chain, from `struct Node` in src/src/stack.rs:
a value and an optional (reference-counted, hence shareable) next node. -/
inductive Node (T : Type) where
  | mk (value : T) (next : Option (Node T))

namespace Node

variable {T : Type}

/-- Field accessor for `value`. -/
def value : Node T → T
  | .mk v _ => v

/-- Field accessor for `next`. -/
def next : Node T → Option (Node T)
  | .mk _ n => n

/-- `Node::new`: a Node with a value and empty next reference. -/
def new (value : T) : Node T := .mk value none

/-- `Node::new_with_next`: a Node with a value and next reference
(the Rust takes `Rc<Node<T>>` and clones the reference, not the node). -/
def new_with_next (value : T) (next_node : Node T) : Node T :=
  .mk value (some next_node)

end Node

/-- The values stored along a chain, head first.  Used to express what the
walking loops of `size` and `to_list` compute. -/
def chainValues {T : Type} : Option (Node T) → List T
  | none => []
  | some (.mk v n) => v :: chainValues n

/-- The number of nodes in a chain. -/
def chainLength {T : Type} : Option (Node T) → Nat
  | none => 0
  | some (.mk _ n) => 1 + chainLength n

/-- The derived `PartialEq` of `struct Node` in src/src/stack.rs (likewise
of `ImmutableNode` in src/src/node/unidirectional.rs): values are compared
with the payload's equality, and the `next` fields recursively, `Option`
and `Rc` equality both delegating to the pointees. -/
def nodeBeq {T : Type} [DecidableEq T] : Node T → Node T → Bool
  | .mk v1 n1, .mk v2 n2 =>
    decide (v1 = v2) &&
      match n1, n2 with
      | none, none => true
      | some a, some b => nodeBeq a b
      | _, _ => false

/-- `pub struct Stack<T> { head: Option<Rc<Node<T>>> }` from src/src/stack.rs. -/
structure Stack (T : Type) where
  head : Option (Node T)

namespace Stack

variable {T : Type}

/-- `Stack::empty`: head absent. -/
def empty : Stack T := ⟨none⟩

/-- `Stack::new`: a Stack whose head is a single fresh tail node. -/
def new (value : T) : Stack T := ⟨some (Node.new value)⟩

/-- `Stack::is_empty`: true iff `head` is absent. -/
def is_empty (s : Stack T) : Bool := s.head.isNone

/-- `Stack::size`: 0 when empty, else the count of nodes walked from head to
the end.  The Rust counter is a `u32`, so the returned count is the walked
count reduced mod 2^32. -/
def size (s : Stack T) : Nat :=
  if s.is_empty then 0 else chainLength s.head % 2 ^ 32

/-- `Stack::peek`: the head value (cloned) without removing it; `None` when
empty. -/
def peek (s : Stack T) : Option T :=
  match s.head with
  | none => none
  | some head_node => some head_node.value

/-- `Stack::peek` written as a state-passing borrow: `peek` takes `&self`
and `Node` has no interior mutability, so the outgoing state is the
incoming stack itself; the body is `peek` above, translated clause by
clause from the source. -/
def peekOp (s : Stack T) : Option T × Stack T := (s.peek, s)

/-- `Stack::push`: when empty the head becomes a fresh tail node; otherwise
the old head reference is taken out and re-anchored as the `next` of a fresh
node which becomes the new head. -/
def push (s : Stack T) (value : T) : Stack T :=
  match s.head with
  | none => ⟨some (Node.new value)⟩
  | some head_node => ⟨some (Node.new_with_next value head_node)⟩

/-- `Stack::pop`: `None` on empty; otherwise the head reference is taken
out, `head` is reassigned to the old head's `next` reference (`None` for a
tail node), and the old head's value is returned. -/
def pop (s : Stack T) : Option T × Stack T :=
  match s.head with
  | none => (none, ⟨none⟩)
  | some head_node => (some head_node.value, ⟨head_node.next⟩)

/-- `Stack::to_list`: the values walked from head to the end, head first. -/
def to_list (s : Stack T) : List T := chainValues s.head

/-- Push a whole sequence in order (first element of the list pushed first). -/
def pushAll (s : Stack T) (vs : List T) : Stack T := vs.foldl Stack.push s

/-- Call `pop` a given number of times, collecting the returned options in
call order together with the final stack. -/
def popIter : Nat → Stack T → List (Option T) × Stack T
  | 0, s => ([], s)
  | n + 1, s =>
    let r := s.pop
    let rest := popIter n r.2
    (r.1 :: rest.1, rest.2)

end Stack

/-- A mutating Stack operation, used to compare two stacks under every
subsequent operation sequence. -/
inductive SOp (T : Type) where
  | push (v : T)
  | pop

/-- Run a sequence of Stack operations, returning the final stack. -/
def runS {T : Type} : List (SOp T) → Stack T → Stack T
  | [], s => s
  | .push v :: ops, s => runS ops (s.push v)
  | .pop :: ops, s => runS ops (s.pop).2

/-- A chain of nodes of length `n`, every value 0.  Used to exhibit concrete
stacks of a given size. -/
def repChain : Nat → Option (Node Nat)
  | 0 => none
  | n + 1 => some (.mk 0 (repChain n))

/-! ### The heap model

Node cells live in an addressed heap; a cell is never written after
allocation, mirroring the `Rc<Node<T>>` discipline of src/src/stack.rs where
the only mutable location is the stack's own `head` field. -/

/-- A node cell in the heap model: a value and an optional address of the
next cell. -/
structure HNode (T : Type) where
  value : T
  next : Option Nat

/-- A heap of node cells; the address of a cell is its index, and
allocation appends, so fresh cells get fresh addresses. -/
abbrev Heap (T : Type) := List (HNode T)

/-- `Stack::push` in the heap model: a fresh cell is allocated whose `next`
is the old head address (absent when the stack was empty, as in the
`is_empty` branch of the source), and the head address is reassigned to it.
No existing cell is touched. -/
def pushH {T : Type} (h : Heap T) (s : Option Nat) (v : T) : Heap T × Option Nat :=
  match s with
  | none => (h ++ [⟨v, none⟩], some h.length)
  | some a => (h ++ [⟨v, some a⟩], some h.length)

/-- `Stack::pop` in the heap model: the head address is reassigned to the
head cell's `next` address and the head cell's value is returned; the heap
is left as it was.  The out-of-bounds read branch is unreachable for a
stack whose head address is a real cell (in Rust the `Rc` guarantees
this). -/
def popH {T : Type} (h : Heap T) (s : Option Nat) : Option T × (Heap T × Option Nat) :=
  match s with
  | none => (none, (h, none))
  | some a =>
    match h[a]? with
    | none => (none, (h, none))
    | some head_node => (some head_node.value, (h, head_node.next))

/-- `Stack::to_list` in the heap model: walk the chain of addresses,
collecting values.  `fuel` bounds the walk so the function is total on
arbitrary heaps; any fuel at least the chain length gives the full walk. -/
def hToList {T : Type} (h : Heap T) : Nat → Option Nat → List T
  | _, none => []
  | 0, some _ => []
  | fuel + 1, some a =>
    match h[a]? with
    | none => []
    | some head_node => head_node.value :: hToList h fuel head_node.next

/-- A concrete two-cell heap: cell 0 holds 10 (a tail), cell 1 holds 20 and
links to cell 0.  Stack A with head address 1 and Stack B with head address
0 share cell 0. -/
def demoHeap : Heap Nat := [⟨10, none⟩, ⟨20, some 0⟩]

/-! ### The Queue model -/

namespace Queue

/-- Modelled from the spec: the Queue state, the chain of still-enqueued
values from the `head` node to the `tail` node.  The source declares only
the Queue shells (`head`/`tail` fields in src/src/queue.rs and
src/src/queue/queue.rs) and no `enqueue`/`dequeue` bodies, so the
behaviour is taken from §4.3 of the spec. -/
abbrev State (T : Type) : Type := List T

/-- Modelled from the spec: `enqueue(value)` — if empty, head and tail
become a single fresh node; otherwise the fresh node is linked after the
current tail and becomes the tail.  In both cases the chain from head to
tail gains `value` at the tail end. -/
def enqueue {T : Type} (q : State T) (v : T) : State T := q ++ [v]

/-- Modelled from the spec: `dequeue()` — absent on empty; otherwise the
head value is returned and head advances to its `next`. -/
def dequeue {T : Type} (q : State T) : Option T × State T :=
  match q with
  | [] => (none, [])
  | x :: rest => (some x, rest)

/-- Modelled from the spec: the node the `head` reference designates holds
the first chain value. -/
def headValue {T : Type} (q : State T) : Option T := q.head?

/-- Modelled from the spec: the node the `tail` reference designates holds
the last chain value. -/
def tailValue {T : Type} (q : State T) : Option T := q.getLast?

/-- An enqueue-or-dequeue step, for interleaved runs. -/
inductive QOp (T : Type) where
  | enq (v : T)
  | deq

/-- Run a sequence of queue operations from a state, returning the values
the successful dequeues produced, in order, and the final state. -/
def runQ {T : Type} : List (QOp T) → State T → List T × State T
  | [], q => ([], q)
  | .enq v :: ops, q => runQ ops (enqueue q v)
  | .deq :: ops, q =>
    match dequeue q with
    | (none, rest) => runQ ops rest
    | (some x, rest) =>
      let r := runQ ops rest
      (x :: r.1, r.2)

/-- The values a run of operations enqueues, in order. -/
def enqValues {T : Type} : List (QOp T) → List T
  | [] => []
  | .enq v :: ops => v :: enqValues ops
  | .deq :: ops => enqValues ops

end Queue

/-! ## Basic lemmas -/

@[simp] theorem chainValues_none {T : Type} : chainValues (T := T) none = [] := by
  simp [chainValues]

@[simp] theorem chainValues_some {T : Type} (v : T) (n : Option (Node T)) :
    chainValues (some (Node.mk v n)) = v :: chainValues n := by
  simp [chainValues]

@[simp] theorem chainLength_none {T : Type} : chainLength (T := T) none = 0 := by
  simp [chainLength]

@[simp] theorem chainLength_some {T : Type} (v : T) (n : Option (Node T)) :
    chainLength (some (Node.mk v n)) = 1 + chainLength n := by
  simp [chainLength]

theorem chainLength_eq_length_chainValues {T : Type} (o : Option (Node T)) :
    chainLength o = (chainValues o).length := by
  induction o using chainLength.induct with
  | case1 => simp
  | case2 v n ih => simp [ih, Nat.add_comm]

namespace Stack

variable {T : Type}

theorem push_head (s : Stack T) (v : T) :
    (s.push v).head = some (Node.mk v s.head) := by
  cases s with
  | mk head => cases head <;> rfl

theorem push_to_list (s : Stack T) (v : T) : (s.push v).to_list = v :: s.to_list := by
  simp [to_list, push_head]

theorem pop_push (s : Stack T) (x : T) : (s.push x).pop = (some x, s) := by
  cases s with
  | mk head => cases head <;> rfl

theorem size_eq (s : Stack T) : s.size = s.to_list.length % 2 ^ 32 := by
  cases s with
  | mk head =>
    cases head with
    | none => simp [size, is_empty, to_list]
    | some nd => simp [size, is_empty, to_list, chainLength_eq_length_chainValues]

theorem is_empty_iff_to_list_nil (s : Stack T) : s.is_empty = true ↔ s.to_list = [] := by
  cases s with
  | mk head =>
    cases head with
    | none => simp [is_empty, to_list]
    | some nd => cases nd with | mk v n => simp [is_empty, to_list]

theorem pushAll_to_list (s : Stack T) (vs : List T) :
    (pushAll s vs).to_list = vs.reverse ++ s.to_list := by
  induction vs generalizing s with
  | nil => simp [pushAll]
  | cons v vs ih =>
    have h : pushAll s (v :: vs) = pushAll (s.push v) vs := rfl
    rw [h, ih, push_to_list]
    simp

end Stack

/-! ## Claim theorems -/

/-- C3: for every stack S and value x, calling pop() immediately after
push(x) on S returns Some(x) and restores S to its prior state exactly:
size() and to_list() afterwards equal their values before the push. -/
theorem C3_pop_push_roundtrip {T : Type} (s : Stack T) (x : T) :
    (s.push x).pop.1 = some x ∧
    (s.push x).pop.2.size = s.size ∧
    (s.push x).pop.2.to_list = s.to_list := by
  rw [Stack.pop_push]
  exact ⟨rfl, rfl, rfl⟩

/-- C5: pop() on an empty stack returns None and leaves the stack unchanged
(size() stays 0), for any number of repeated calls in a row. -/
theorem C5_pop_empty_idempotent {T : Type} (s : Stack T) (n : Nat)
    (h : s.is_empty = true) :
    (Stack.popIter n s).1 = List.replicate n none ∧
    (Stack.popIter n s).2 = s ∧
    (Stack.popIter n s).2.size = 0 := by
  obtain ⟨head⟩ := s
  cases head with
  | some nd => simp [Stack.is_empty] at h
  | none =>
    induction n with
    | zero => exact ⟨rfl, rfl, rfl⟩
    | succ n ih =>
      obtain ⟨h1, h2, h3⟩ := ih
      refine ⟨?_, ?_, ?_⟩ <;>
        simp [Stack.popIter, Stack.pop, Stack.size, Stack.is_empty, h1, h2, h3,
          List.replicate_succ]

/-- Witness for C5 at the concrete empty stack of naturals, three pops. -/
theorem C5_witness :
    (Stack.empty : Stack Nat).is_empty = true ∧
    ((Stack.popIter 3 (Stack.empty : Stack Nat)).1 = List.replicate 3 none ∧
     (Stack.popIter 3 (Stack.empty : Stack Nat)).2 = Stack.empty ∧
     (Stack.popIter 3 (Stack.empty : Stack Nat)).2.size = 0) :=
  ⟨rfl, C5_pop_empty_idempotent Stack.empty 3 rfl⟩

/-- C6: peek() returns the head node's value without mutating the stack,
is absent exactly when the stack is empty, never changes size() or
to_list(), and repeated calls return the same result. -/
theorem C6_peek_frame {T : Type} (s : Stack T) :
    s.peekOp.2.size = s.size ∧
    s.peekOp.2.to_list = s.to_list ∧
    s.peekOp.2.peekOp.1 = s.peekOp.1 ∧
    (s.peek = none ↔ s.is_empty = true) ∧
    (∀ nd, s.head = some nd → s.peek = some nd.value) := by
  refine ⟨rfl, rfl, rfl, ?_, ?_⟩
  · obtain ⟨head⟩ := s
    cases head <;> simp [Stack.peek, Stack.is_empty]
  · intro nd hnd
    obtain ⟨head⟩ := s
    simp at hnd
    subst hnd
    rfl

/-- Witness for C6 at the concrete singleton stack holding 5. -/
theorem C6_witness :
    (Stack.new (5 : Nat)).head = some (Node.new 5) ∧
    (Stack.new (5 : Nat)).peek = some ((Node.new (5 : Nat)).value) :=
  ⟨rfl, (C6_peek_frame (Stack.new 5)).2.2.2.2 (Node.new 5) rfl⟩

/-- C9: Stack::new(v) is observably identical to Stack::empty() followed by
push(v): the two stacks are equal, agree on is_empty(), size(), peek() and
to_list(), and agree after any subsequent sequence of operations. -/
theorem C9_new_eq_empty_push {T : Type} (v : T) :
    Stack.new v = Stack.empty.push v ∧
    (Stack.new v).is_empty = (Stack.empty.push v).is_empty ∧
    (Stack.new v).size = (Stack.empty.push v).size ∧
    (Stack.new v).peek = (Stack.empty.push v).peek ∧
    (Stack.new v).to_list = (Stack.empty.push v).to_list ∧
    ∀ ops : List (SOp T), runS ops (Stack.new v) = runS ops (Stack.empty.push v) := by
  have h : Stack.new v = Stack.empty.push v := rfl
  exact ⟨h, by rw [h], by rw [h], by rw [h], by rw [h], fun ops => by rw [h]⟩

/-- C10: peek() equals the first element of to_list() when non-empty, and
peek() is None exactly when to_list() is the empty sequence. -/
theorem C10_peek_to_list_head {T : Type} (s : Stack T) :
    s.peek = s.to_list.head? ∧ (s.peek = none ↔ s.to_list = []) := by
  obtain ⟨head⟩ := s
  cases head with
  | none =>
    constructor
    · simp [Stack.peek, Stack.to_list]
    · simp [Stack.peek, Stack.to_list]
  | some nd =>
    cases nd with
    | mk v n =>
      constructor
      · simp [Stack.peek, Stack.to_list, Node.value]
      · simp [Stack.peek, Stack.to_list]

theorem repChain_chainLength (n : Nat) : chainLength (repChain n) = n := by
  induction n with
  | zero => simp [repChain]
  | succ n ih => simp [repChain, ih, Nat.add_comm]

theorem empty_to_list {T : Type} : (Stack.empty : Stack T).to_list = [] := by
  simp [Stack.empty, Stack.to_list]

/-- C1 counterexample: pushing 2^32 values onto an empty stack makes the
`u32` counter of `size()` wrap, so `size()` returns 0, not 2^32, while
`to_list()` does return all 2^32 values. -/
theorem C1_counterexample :
    ¬ ((Stack.pushAll Stack.empty (List.replicate (2 ^ 32) (0 : Nat))).to_list
          = (List.replicate (2 ^ 32) (0 : Nat)).reverse ∧
       (Stack.pushAll Stack.empty (List.replicate (2 ^ 32) (0 : Nat))).size
          = (List.replicate (2 ^ 32) (0 : Nat)).length) := by
  rintro ⟨-, h⟩
  rw [Stack.size_eq, Stack.pushAll_to_list, empty_to_list, List.append_nil,
    List.length_reverse, List.length_replicate, Nat.mod_self] at h
  norm_num at h

/-- C1 (amended with n < 2^32): pushing v1..vn in order onto an empty Stack
then calling to_list() yields the reverse of the push order, and size()
returns n. -/
theorem C1_push_sequence {T : Type} (vs : List T) (h : vs.length < 2 ^ 32) :
    (Stack.pushAll Stack.empty vs).to_list = vs.reverse ∧
    (Stack.pushAll Stack.empty vs).size = vs.length := by
  constructor
  · rw [Stack.pushAll_to_list, empty_to_list, List.append_nil]
  · rw [Stack.size_eq, Stack.pushAll_to_list, empty_to_list, List.append_nil,
      List.length_reverse, Nat.mod_eq_of_lt h]

/-- Witness for C1 at the concrete sequence [10, 20, 30]. -/
theorem C1_witness :
    ([10, 20, 30] : List Nat).length < 2 ^ 32 ∧
    ((Stack.pushAll Stack.empty ([10, 20, 30] : List Nat)).to_list = [30, 20, 10] ∧
     (Stack.pushAll Stack.empty ([10, 20, 30] : List Nat)).size = 3) := by
  have hlen : ([10, 20, 30] : List Nat).length < 2 ^ 32 := by norm_num
  refine ⟨hlen, ?_⟩
  have h := C1_push_sequence ([10, 20, 30] : List Nat) hlen
  simpa using h

/-- C7 counterexample: a stack whose chain holds 2^32 nodes has
`to_list()` of length 2^32 but `size()` equal to 0, the `u32` counter
having wrapped. -/
theorem C7_counterexample :
    ¬ ((Stack.mk (repChain (2 ^ 32))).size
        = (Stack.mk (repChain (2 ^ 32))).to_list.length) := by
  have hl : (Stack.mk (repChain (2 ^ 32))).to_list.length = 2 ^ 32 := by
    show (chainValues (repChain (2 ^ 32))).length = 2 ^ 32
    rw [← chainLength_eq_length_chainValues, repChain_chainLength]
  rw [Stack.size_eq, hl]
  simp [Nat.mod_self]

/-- C7 (amended with chain length < 2^32): the chain reachable from head is
finite and acyclic (it is an inductive value), size() equals the chain
length, to_list() enumerates the chain values head-to-tail, size() equals
the number of elements of to_list(), and the relation holds again after any
sequence of operations whose result also keeps the chain below 2^32. -/
theorem C7_size_to_list_invariant {T : Type} (s : Stack T)
    (h : chainLength s.head < 2 ^ 32) :
    s.size = chainLength s.head ∧
    s.to_list = chainValues s.head ∧
    s.size = s.to_list.length ∧
    ∀ ops : List (SOp T), chainLength (runS ops s).head < 2 ^ 32 →
      (runS ops s).size = (runS ops s).to_list.length := by
  have key : ∀ t : Stack T, chainLength t.head < 2 ^ 32 → t.size = t.to_list.length := by
    intro t ht
    rw [Stack.size_eq]
    have : t.to_list.length = chainLength t.head := by
      rw [chainLength_eq_length_chainValues]
      rfl
    rw [this, Nat.mod_eq_of_lt ht, ← this]
  refine ⟨?_, rfl, key s h, fun ops hops => key (runS ops s) hops⟩
  have hv : s.to_list = chainValues s.head := rfl
  rw [Stack.size_eq, hv, ← chainLength_eq_length_chainValues, Nat.mod_eq_of_lt h]

/-- Witness for C7 at the concrete two-element stack [2, 1]. -/
theorem C7_witness :
    chainLength (Stack.pushAll Stack.empty ([1, 2] : List Nat)).head < 2 ^ 32 ∧
    (Stack.pushAll Stack.empty ([1, 2] : List Nat)).size
      = (Stack.pushAll Stack.empty ([1, 2] : List Nat)).to_list.length := by
  have hlen : chainLength (Stack.pushAll Stack.empty ([1, 2] : List Nat)).head < 2 ^ 32 := by
    show chainLength (some (Node.mk 2 (some (Node.mk 1 none)))) < 2 ^ 32
    simp
  exact ⟨hlen, (C7_size_to_list_invariant _ hlen).2.2.1⟩

/-- C2: push and pop never write any existing node cell — pop returns the
very same heap and push only appends a fresh cell — so for any two stacks
A and B into the same heap (B's head being any node address, in particular
one reachable from A's chain), popping A leaves B's to_list unchanged and
popping B leaves A's to_list unchanged, at every traversal fuel. -/
theorem C2_pop_push_frame {T : Type} (h : Heap T) (a b : Option Nat) (v : T) :
    (popH h a).2.1 = h ∧
    (popH h b).2.1 = h ∧
    (∀ i, i < h.length → ((pushH h a v).1)[i]? = h[i]?) ∧
    (∀ fuel, hToList ((popH h a).2.1) fuel b = hToList h fuel b) ∧
    (∀ fuel, hToList ((popH h b).2.1) fuel a = hToList h fuel a) := by
  have hp : ∀ c : Option Nat, (popH h c).2.1 = h := by
    intro c
    cases c with
    | none => rfl
    | some x =>
      cases hx : h[x]? with
      | none => simp [popH, hx]
      | some nd => simp [popH, hx]
  refine ⟨hp a, hp b, ?_, fun fuel => by rw [hp a], fun fuel => by rw [hp b]⟩
  intro i hi
  cases a with
  | none => simp [pushH, List.getElem?_append_left hi]
  | some x => simp [pushH, List.getElem?_append_left hi]

/-- Witness for C2 on the concrete two-cell demoHeap, stack A at address 1
and stack B at the shared tail cell 0. -/
theorem C2_witness :
    (1 : Nat) < demoHeap.length ∧
    ((popH demoHeap (some 1)).2.1 = demoHeap ∧
     ((pushH demoHeap (some 1) (99 : Nat)).1)[1]? = demoHeap[1]? ∧
     hToList ((popH demoHeap (some 1)).2.1) demoHeap.length (some 0)
       = hToList demoHeap demoHeap.length (some 0) ∧
     hToList ((popH demoHeap (some 0)).2.1) demoHeap.length (some 1)
       = hToList demoHeap demoHeap.length (some 1)) := by
  have h1 : (1 : Nat) < demoHeap.length := by norm_num [demoHeap]
  have hc := C2_pop_push_frame demoHeap (some 1) (some 0) (99 : Nat)
  exact ⟨h1, hc.1, hc.2.2.1 1 h1, hc.2.2.2.1 demoHeap.length, hc.2.2.2.2 demoHeap.length⟩

theorem runQ_outputs_append_state {T : Type} (ops : List (Queue.QOp T))
    (q : Queue.State T) :
    (Queue.runQ ops q).1 ++ (Queue.runQ ops q).2 = q ++ Queue.enqValues ops := by
  induction ops generalizing q with
  | nil => simp [Queue.runQ, Queue.enqValues]
  | cons op ops ih =>
    cases op with
    | enq v =>
      show (Queue.runQ ops (q ++ [v])).1 ++ (Queue.runQ ops (q ++ [v])).2
          = q ++ (v :: Queue.enqValues ops)
      rw [ih]
      simp
    | deq =>
      cases q with
      | nil =>
        show (Queue.runQ ops []).1 ++ (Queue.runQ ops []).2
            = [] ++ Queue.enqValues (Queue.QOp.deq :: ops)
        rw [ih]
        rfl
      | cons x rest =>
        show (x :: (Queue.runQ ops rest).1) ++ (Queue.runQ ops rest).2
            = (x :: rest) ++ Queue.enqValues (Queue.QOp.deq :: ops)
        have := ih rest
        simp only [List.cons_append]
        rw [this]
        rfl

theorem runQ_replicate_deq {T : Type} (n : Nat) (q : Queue.State T) :
    Queue.runQ (List.replicate n Queue.QOp.deq) q = (q.take n, q.drop n) := by
  induction n generalizing q with
  | zero => simp [Queue.runQ]
  | succ n ih =>
    cases q with
    | nil => simp [List.replicate_succ, Queue.runQ, Queue.dequeue, ih]
    | cons x rest => simp [List.replicate_succ, Queue.runQ, Queue.dequeue, ih]

theorem runQ_map_enq {T : Type} (vs : List T) (q : Queue.State T) :
    Queue.runQ (vs.map Queue.QOp.enq) q = ([], q ++ vs) := by
  induction vs generalizing q with
  | nil => simp [Queue.runQ]
  | cons v vs ih => simp [Queue.runQ, Queue.enqueue, ih]

theorem runQ_append {T : Type} (ops1 ops2 : List (Queue.QOp T)) (q : Queue.State T) :
    Queue.runQ (ops1 ++ ops2) q =
      ((Queue.runQ ops1 q).1 ++ (Queue.runQ ops2 (Queue.runQ ops1 q).2).1,
       (Queue.runQ ops2 (Queue.runQ ops1 q).2).2) := by
  induction ops1 generalizing q with
  | nil => simp [Queue.runQ]
  | cons op ops ih =>
    cases op with
    | enq v => simp [Queue.runQ, ih]
    | deq =>
      cases q with
      | nil => simp [Queue.runQ, Queue.dequeue, ih]
      | cons x rest => simp [Queue.runQ, Queue.dequeue, ih]

/-- C4 (spec-modelled): enqueuing v1..vn in order onto an empty Queue and
dequeuing n times returns v1..vn in that order emptying the queue; under
any interleaving the dequeued values followed by the still-enqueued chain
equal the initial chain followed by all enqueued values in order (FIFO);
and enqueue on an empty Queue yields a single-node chain whose head and
tail designate that one fresh node. -/
theorem C4_queue_fifo {T : Type} (vs : List T) (ops : List (Queue.QOp T))
    (q : Queue.State T) (v : T) :
    Queue.runQ (vs.map Queue.QOp.enq ++ List.replicate vs.length Queue.QOp.deq) []
      = (vs, []) ∧
    (Queue.runQ ops q).1 ++ (Queue.runQ ops q).2 = q ++ Queue.enqValues ops ∧
    Queue.enqueue ([] : Queue.State T) v = [v] ∧
    Queue.headValue (Queue.enqueue ([] : Queue.State T) v) = some v ∧
    Queue.tailValue (Queue.enqueue ([] : Queue.State T) v) = some v := by
  refine ⟨?_, runQ_outputs_append_state ops q, rfl, rfl, ?_⟩
  · rw [runQ_append, runQ_map_enq, runQ_replicate_deq]
    simp
  · simp [Queue.enqueue, Queue.tailValue]

theorem chainValues_inj {T : Type} (o1 o2 : Option (Node T))
    (h : chainValues o1 = chainValues o2) : o1 = o2 := by
  induction o1 using chainValues.induct generalizing o2 with
  | case1 =>
    cases o2 with
    | none => rfl
    | some nd =>
      cases nd with
      | mk w m => simp at h
  | case2 v n ih =>
    cases o2 with
    | none => simp at h
    | some nd =>
      cases nd with
      | mk w m =>
        simp at h
        obtain ⟨hv, hn⟩ := h
        rw [hv, ih m hn]

theorem nodeBeq_eq_true_iff {T : Type} [DecidableEq T] (a b : Node T) :
    nodeBeq a b = true ↔ a = b := by
  cases a with
  | mk v1 n1 =>
    cases b with
    | mk v2 n2 =>
      cases n1 with
      | none =>
        cases n2 with
        | none => simp [nodeBeq]
        | some b2 => simp [nodeBeq]
      | some a1 =>
        cases n2 with
        | none => simp [nodeBeq]
        | some b2 =>
          have ih := nodeBeq_eq_true_iff a1 b2
          simp [nodeBeq, ih]
termination_by sizeOf a

/-- C8: node equality is structural, not reference-based: two nodes compare
equal exactly when they are the same chain value, equivalently exactly when
their value sequences agree, so a freshly built chain equals a chain built
by sharing when the values match. -/
theorem C8_structural_eq {T : Type} [DecidableEq T] (a b : Node T) :
    (nodeBeq a b = true ↔ a = b) ∧
    (nodeBeq a b = true ↔ chainValues (some a) = chainValues (some b)) := by
  refine ⟨nodeBeq_eq_true_iff a b, ?_⟩
  rw [nodeBeq_eq_true_iff a b]
  constructor
  · rintro rfl
    rfl
  · intro h
    have := chainValues_inj (some a) (some b) h
    exact Option.some_injective _ this

end Solanum
